import Mathlib

/-!
Verification development for the YouTube scheduling/synchronization engine
(`main_SOLID.py`).  Python strings are modelled as `List Char`, instants as
natural-number seconds since an arbitrary epoch, and the remote platform
(the YouTube Data API reached through `YouTubeAPI`) as an explicit state
record together with an oracle describing which transport calls fail.
Machine integers do not occur in the source (Python integers are unbounded),
so `Nat` is used directly.
-/

/-- Python strings are sequences of code points. -/
abbrev Str := List Char

/-- `str.lower()` on the characters that occur in this program's data
(ASCII plus the Spanish accented letters used in the source literals). -/
def pyToLower (c : Char) : Char :=
  if c = 'Á' then 'á' else if c = 'É' then 'é' else if c = 'Í' then 'í'
  else if c = 'Ó' then 'ó' else if c = 'Ú' then 'ú' else if c = 'Ñ' then 'ñ'
  else if c = 'Ü' then 'ü' else c.toLower

/-- `str.upper()` on the characters that occur in this program's data. -/
def pyToUpper (c : Char) : Char :=
  if c = 'á' then 'Á' else if c = 'é' then 'É' else if c = 'í' then 'Í'
  else if c = 'ó' then 'Ó' else if c = 'ú' then 'Ú' else if c = 'ñ' then 'Ñ'
  else if c = 'ü' then 'Ü' else c.toUpper

/-- `s.lower()` applied to a whole string. -/
def strLower (s : Str) : Str := s.map pyToLower

/-- `s.upper()` applied to a whole string. -/
def strUpper (s : Str) : Str := s.map pyToUpper

/-- Python `<=` on strings: code-point lexicographic order. -/
def lexLe : Str → Str → Bool
  | [], _ => true
  | _ :: _, [] => false
  | a :: as, b :: bs => decide (a < b) || (a == b && lexLe as bs)

/-- Helper for the substring test: does `needle` start `hay`? -/
def isPrefixOfChars : Str → Str → Bool
  | [], _ => true
  | _ :: _, [] => false
  | a :: as, b :: bs => a == b && isPrefixOfChars as bs

/-- Python's substring test `needle in hay`. -/
def containsSub (needle : Str) : Str → Bool
  | [] => isPrefixOfChars needle []
  | c :: rest => isPrefixOfChars needle (c :: rest) || containsSub needle rest

/-- Python's `\s` character class (ASCII part, which is all the data uses). -/
def isSpaceChar (c : Char) : Bool :=
  c == ' ' || c == '\t' || c == '\n' || c == '\r' || c == '\x0b' || c == '\x0c'

/-- One left-to-right pass implementing `re.search(r"(\d+)" + c, s)`:
`cur` carries the value of the digit run ending right before the current
position; the first digit run immediately followed by `c` wins, and the
greedy `\d+` group is the whole run. -/
def scanNumAux (c : Char) : Option Nat → Str → Option Nat
  | _, [] => none
  | cur, x :: xs =>
    if x.isDigit then scanNumAux c (some (10 * cur.getD 0 + (x.toNat - 48))) xs
    else
      match cur with
      | some v => if x == c then some v else scanNumAux c none xs
      | none => scanNumAux c none xs

/-- `re.search(r"(\d+)M", s)` / `re.search(r"(\d+)S", s)` returning the
numeric value of the captured group. -/
def scanNum (c : Char) (s : Str) : Option Nat := scanNumAux c none s

/-- Decimal value of a digit string, as `int()` computes it. -/
def digitsVal (l : Str) : Nat := l.foldl (fun a c => 10 * a + (c.toNat - 48)) 0

-- ### Slot calendar (`CalendarStrategy.generate_schedule`)

/-- One weekly slot `(weekday, hour, minute)`; weekday 0 is Monday, matching
Python's `datetime.weekday()`. -/
structure Slot where
  wday : Nat
  hour : Nat
  minute : Nat
deriving DecidableEq

/-- The hard-coded template of `generate_schedule`. -/
def slotsFixed : List Slot :=
  [⟨0, 7, 30⟩, ⟨1, 13, 0⟩, ⟨2, 13, 0⟩, ⟨3, 13, 0⟩, ⟨4, 19, 0⟩, ⟨5, 10, 0⟩, ⟨6, 20, 0⟩]

/-- `current.replace(hour=hr, minute=mnt, second=0, microsecond=0)` for day
number `d`, in seconds since the epoch. -/
def slot_instant (d : Nat) (s : Slot) : Nat :=
  d * 86400 + s.hour * 3600 + s.minute * 60

/-- The inner `for s_day, hr, mnt in slots:` loop for one day `d`: weekday `w0`
is the weekday of epoch day 0, so day `d` has weekday `(w0 + d) % 7`.  A slot
is emitted when the weekday matches, the slot instant is strictly after `now`,
and the quantity has not yet been reached. -/
def day_emit (slots : List Slot) (w0 now quantity d : Nat) (acc : List Nat) : List Nat :=
  slots.foldl
    (fun a s =>
      if (w0 + d) % 7 = s.wday ∧ now < slot_instant d s ∧ a.length < quantity
      then a ++ [slot_instant d s] else a)
    acc

/-- The `while len(dates) < quantity:` loop, with an explicit iteration bound
`fuel`; `none` means the bound was exhausted with the loop still running. -/
def gen_loop (slots : List Slot) (w0 now quantity : Nat) :
    Nat → Nat → List Nat → Option (List Nat)
  | 0, _, acc => if acc.length < quantity then none else some acc
  | fuel + 1, d, acc =>
    if acc.length < quantity then
      gen_loop slots w0 now quantity fuel (d + 1) (day_emit slots w0 now quantity d acc)
    else some acc

/-- `CalendarStrategy.generate_schedule(quantity)`: the loop starts on the day
of `now` and, with the fixed seven-day template, `quantity + 1` iterations are
always enough (proved below).  The source re-reads `datetime.now()` at each
comparison; the embedding fixes the generation instant `now` — every re-read
is at least `now`, so an emitted instant that passes the live check is also
strictly after the generation instant, and the timestamps (emitted as
`strftime` strings, an order-preserving injective rendering) are modelled by
their underlying instants. -/
def generate_schedule (w0 now quantity : Nat) : List Nat :=
  (gen_loop slotsFixed w0 now quantity (quantity + 1) (now / 86400) []).getD []

-- ### Facts about `day_emit` for the fixed template

lemma day_emit_spec (w0 now q d : Nat) (acc : List Nat) :
    (day_emit slotsFixed w0 now q d acc = acc ∨
      ∃ t, day_emit slotsFixed w0 now q d acc = acc ++ [t] ∧ now < t ∧
        d * 86400 ≤ t ∧ t < d * 86400 + 86400) ∧
    (now < d * 86400 → acc.length < q →
      ∃ t, day_emit slotsFixed w0 now q d acc = acc ++ [t] ∧
        d * 86400 ≤ t ∧ t < d * 86400 + 86400) := by
  have h7 : (w0 + d) % 7 = 0 ∨ (w0 + d) % 7 = 1 ∨ (w0 + d) % 7 = 2 ∨
      (w0 + d) % 7 = 3 ∨ (w0 + d) % 7 = 4 ∨ (w0 + d) % 7 = 5 ∨ (w0 + d) % 7 = 6 := by
    omega
  rcases h7 with h | h | h | h | h | h | h
  all_goals
    simp [day_emit, slotsFixed, slot_instant, h]
    constructor
    · split_ifs with hc
      · right; exact ⟨_, rfl, by omega, by omega, by omega⟩
      · left; omega
    · intro hnow hlen
      split_ifs with hc
      · exact ⟨_, rfl, by omega, by omega⟩
      · omega

lemma gen_loop_fixed_ok (w0 now q : Nat) :
    ∀ fuel d acc, now < d * 86400 → q ≤ acc.length + fuel → acc.length ≤ q →
      (∀ t ∈ acc, now < t) → (∀ t ∈ acc, t < d * 86400) → acc.Pairwise (· ≤ ·) →
      ∃ l, gen_loop slotsFixed w0 now q fuel d acc = some l ∧ l.length = q ∧
        (∀ t ∈ l, now < t) ∧ l.Pairwise (· ≤ ·) := by
  intro fuel
  induction fuel with
  | zero =>
    intro d acc _ hfu hle hnow _ hsort
    have hlen : acc.length = q := by omega
    refine ⟨acc, ?_, hlen, hnow, hsort⟩
    simp [gen_loop, hlen]
  | succ f ih =>
    intro d acc hd hfu hle hnow hbound hsort
    by_cases hq : acc.length < q
    · obtain ⟨t, hemit, ht1, ht2⟩ := (day_emit_spec w0 now q d acc).2 hd hq
      have hacc' : ∀ x ∈ acc ++ [t], now < x := by
        intro x hx
        rcases List.mem_append.1 hx with hx | hx
        · exact hnow x hx
        · simp at hx; omega
      have hbound' : ∀ x ∈ acc ++ [t], x < (d + 1) * 86400 := by
        intro x hx
        rcases List.mem_append.1 hx with hx | hx
        · have := hbound x hx; omega
        · simp at hx; omega
      have hsort' : (acc ++ [t]).Pairwise (· ≤ ·) := by
        refine List.pairwise_append.2 ⟨hsort, List.pairwise_singleton _ _, ?_⟩
        intro a ha b hb
        simp at hb
        have := hbound a ha
        omega
      have hlen' : (acc ++ [t]).length = acc.length + 1 := by simp
      obtain ⟨l, hl, hlq, hlnow, hlsort⟩ :=
        ih (d + 1) (acc ++ [t]) (by omega) (by omega) (by omega) hacc' hbound' hsort'
      refine ⟨l, ?_, hlq, hlnow, hlsort⟩
      simpa [gen_loop, hq, hemit] using hl
    · have hlen : acc.length = q := by omega
      refine ⟨acc, ?_, hlen, hnow, hsort⟩
      simp [gen_loop, hq]

/-- Shared specification of `generate_schedule`: used both by the claim about
the calendar itself and by the tasks that consume the batch. -/
lemma generate_schedule_spec (w0 now q : Nat) :
    ∃ l, gen_loop slotsFixed w0 now q (q + 1) (now / 86400) [] = some l ∧
      generate_schedule w0 now q = l ∧ l.length = q ∧
      (∀ t ∈ l, now < t) ∧ l.Pairwise (· ≤ ·) := by
  rcases Nat.eq_zero_or_pos q with hq | hq
  · subst hq
    exact ⟨[], by simp [gen_loop], by simp [generate_schedule, gen_loop], by simp, by simp, by simp⟩
  · have hstep : gen_loop slotsFixed w0 now q (q + 1) (now / 86400) [] =
        gen_loop slotsFixed w0 now q q (now / 86400 + 1)
          (day_emit slotsFixed w0 now q (now / 86400) []) := by
      simp [gen_loop, hq]
    have hd1 : now < (now / 86400 + 1) * 86400 := by omega
    rcases (day_emit_spec w0 now q (now / 86400) []).1 with hcase | ⟨t, hemit, htnow, ht1, ht2⟩
    · obtain ⟨l, hl, hlq, hlnow, hlsort⟩ :=
        gen_loop_fixed_ok w0 now q q (now / 86400 + 1) [] hd1 (by simp <;> omega) (by simp)
          (by simp) (by simp) (by simp)
      refine ⟨l, ?_, ?_, hlq, hlnow, hlsort⟩
      · rw [hstep, hcase]; exact hl
      · rw [generate_schedule, hstep, hcase, hl]; rfl
    · obtain ⟨l, hl, hlq, hlnow, hlsort⟩ :=
        gen_loop_fixed_ok w0 now q q (now / 86400 + 1) [t] (by omega) (by simp <;> omega)
          (by simp <;> omega) (by simpa using htnow) (by simp <;> omega) (List.pairwise_singleton _ _)
      refine ⟨l, ?_, ?_, hlq, hlnow, hlsort⟩
      · rw [hstep, hemit]; simpa using hl
      · rw [generate_schedule, hstep, hemit]; simp at hl ⊢; rw [hl]; rfl

/-- C1: for every quantity `Q ≥ 0` the slot-calendar generator produces, within
`Q + 1` iterations of its `while` loop, exactly `Q` timestamps, each strictly
after the generation instant `now`, in non-decreasing order; for `Q = 0` the
result is the empty sequence. -/
theorem calendar_generate_count_future_sorted (w0 now q : Nat) :
    ∃ l, gen_loop slotsFixed w0 now q (q + 1) (now / 86400) [] = some l ∧
      generate_schedule w0 now q = l ∧ l.length = q ∧
      (∀ t ∈ l, now < t) ∧ l.Pairwise (· ≤ ·) ∧ (q = 0 → l = []) := by
  obtain ⟨l, h1, h2, h3, h4, h5⟩ := generate_schedule_spec w0 now q
  refine ⟨l, h1, h2, h3, h4, h5, ?_⟩
  intro hq
  subst hq
  exact List.length_eq_zero.1 h3

-- ### Facts about `day_emit` and `gen_loop` for an arbitrary template (C2)

lemma day_emit_cons (s : Slot) (ss : List Slot) (w0 now q d : Nat) (acc : List Nat) :
    day_emit (s :: ss) w0 now q d acc =
      day_emit ss w0 now q d
        (if (w0 + d) % 7 = s.wday ∧ now < slot_instant d s ∧ acc.length < q
         then acc ++ [slot_instant d s] else acc) := rfl

lemma day_emit_extend (w0 now q d : Nat) :
    ∀ (slots : List Slot) (acc : List Nat),
      ∃ ext, day_emit slots w0 now q d acc = acc ++ ext := by
  intro slots
  induction slots with
  | nil => exact fun acc => ⟨[], by simp [day_emit]⟩
  | cons s ss ih =>
    intro acc
    rw [day_emit_cons]
    split_ifs with hc
    · obtain ⟨ext, he⟩ := ih (acc ++ [slot_instant d s])
      exact ⟨[slot_instant d s] ++ ext, by rw [he]; simp⟩
    · exact ih acc

lemma day_emit_le_length (slots : List Slot) (w0 now q d : Nat) (acc : List Nat) :
    acc.length ≤ (day_emit slots w0 now q d acc).length := by
  obtain ⟨ext, he⟩ := day_emit_extend w0 now q d slots acc
  rw [he]
  simp

lemma day_emit_cap (w0 now q d : Nat) :
    ∀ (slots : List Slot) (acc : List Nat), acc.length ≤ q →
      (day_emit slots w0 now q d acc).length ≤ q := by
  intro slots
  induction slots with
  | nil => exact fun acc h => h
  | cons s ss ih =>
    intro acc h
    rw [day_emit_cons]
    split_ifs with hc
    · exact ih _ (by simp; omega)
    · exact ih _ h

lemma day_emit_grow (w0 now q d : Nat) (s : Slot) (hd : now < d * 86400) :
    ∀ (slots : List Slot), s ∈ slots → (w0 + d) % 7 = s.wday →
      ∀ acc : List Nat, acc.length < q →
        acc.length < (day_emit slots w0 now q d acc).length := by
  intro slots
  induction slots with
  | nil => intro hs; exact absurd hs (List.not_mem_nil s)
  | cons s' ss ih =>
    intro hs hw acc hlen
    rw [day_emit_cons]
    split_ifs with hc
    · calc acc.length < (acc ++ [slot_instant d s']).length := by simp
        _ ≤ _ := day_emit_le_length ss w0 now q d _
    · rcases List.mem_cons.1 hs with hs' | hs'
      · exfalso
        apply hc
        subst hs'
        refine ⟨hw, ?_, hlen⟩
        have : d * 86400 ≤ slot_instant d s := by simp only [slot_instant]; omega
        omega
      · exact ih hs' hw acc hlen

lemma gen_loop_done (slots : List Slot) (w0 now q : Nat) (fuel d : Nat) (acc : List Nat)
    (h : ¬acc.length < q) : gen_loop slots w0 now q fuel d acc = some acc := by
  cases fuel with
  | zero => simp [gen_loop, h]
  | succ f => simp [gen_loop, h]

lemma gen_loop_general_term (slots : List Slot) (s₀ : Slot) (hmem : s₀ ∈ slots)
    (hw : s₀.wday < 7) (w0 now q : Nat) :
    ∀ fuel d acc, now < d * 86400 → acc.length ≤ q →
      7 * (q - acc.length) + (7 + s₀.wday - (w0 + d) % 7) % 7 ≤ fuel →
      ∃ l, gen_loop slots w0 now q fuel d acc = some l ∧ l.length = q := by
  intro fuel
  induction fuel using Nat.strong_induction_on with
  | _ fuel ih =>
    intro d acc hd hle hfuel
    by_cases hq : acc.length < q
    · cases fuel with
      | zero => exfalso; omega
      | succ f =>
        have hmod : (w0 + d) % 7 < 7 := Nat.mod_lt _ (by omega)
        have hmod1 : (w0 + (d + 1)) % 7 < 7 := Nat.mod_lt _ (by omega)
        have hcap := day_emit_cap w0 now q d slots acc (by omega)
        have hmono := day_emit_le_length slots w0 now q d acc
        have hstep : gen_loop slots w0 now q (f + 1) d acc =
            gen_loop slots w0 now q f (d + 1) (day_emit slots w0 now q d acc) := by
          simp [gen_loop, hq]
        rw [hstep]
        by_cases hmatch : (w0 + d) % 7 = s₀.wday
        · have hgrow := day_emit_grow w0 now q d s₀ hd slots hmem hmatch acc hq
          exact ih f (by omega) (d + 1) _ (by omega) hcap (by omega)
        · exact ih f (by omega) (d + 1) _ (by omega) hcap (by omega)
    · exact ⟨acc, gen_loop_done slots w0 now q fuel d acc hq, by omega⟩

lemma gen_loop_nil_none (w0 now q : Nat) :
    ∀ fuel d (acc : List Nat), acc.length < q →
      gen_loop [] w0 now q fuel d acc = none := by
  intro fuel
  induction fuel with
  | zero => intro d acc h; simp [gen_loop, h]
  | succ f ih =>
    intro d acc h
    have hde : day_emit [] w0 now q d acc = acc := rfl
    simp only [gen_loop, if_pos h, hde]
    exact ih (d + 1) acc h

/-- C2 counterexample: run with a zero-entry template the reference loop does
not fail fast with a `ConfigurationError` (no such exception exists in the
code); after 200 iterations it is still running with no timestamp produced. -/
theorem calendar_empty_template_still_looping_after_200 :
    gen_loop [] 0 0 1 200 (0 / 86400) [] = none := by decide

/-- C2 (amended): with any template containing an entry whose weekday is valid
(`< 7`) the generator terminates with exactly the requested quantity after a
finite number of loop iterations; with a zero-entry template the code raises
no `ConfigurationError` — the loop simply never finishes: after every number
of iterations it has produced no result. -/
theorem calendar_termination_dichotomy (w0 now q : Nat) (slots : List Slot) (s₀ : Slot) :
    (s₀ ∈ slots → s₀.wday < 7 →
      ∃ fuel l, gen_loop slots w0 now q fuel (now / 86400) [] = some l ∧ l.length = q) ∧
    (0 < q → ∀ fuel, gen_loop [] w0 now q fuel (now / 86400) [] = none) := by
  constructor
  · intro hmem hw
    by_cases hq : 0 < q
    · refine ⟨7 * q + 8, ?_⟩
      have hstep : gen_loop slots w0 now q (7 * q + 8) (now / 86400) [] =
          gen_loop slots w0 now q (7 * q + 7) (now / 86400 + 1)
            (day_emit slots w0 now q (now / 86400) []) := by
        have h8 : 7 * q + 8 = (7 * q + 7) + 1 := by omega
        rw [h8]
        simp [gen_loop, hq]
      have hmod : (7 + s₀.wday - (w0 + (now / 86400 + 1)) % 7) % 7 < 7 :=
        Nat.mod_lt _ (by omega)
      have hcap := day_emit_cap w0 now q (now / 86400) slots [] (by simp)
      obtain ⟨l, hl, hlq⟩ :=
        gen_loop_general_term slots s₀ hmem hw w0 now q (7 * q + 7) (now / 86400 + 1)
          (day_emit slots w0 now q (now / 86400) []) (by omega) hcap (by omega)
      rw [hstep]
      exact ⟨l, hl, hlq⟩
    · exact ⟨1, [], gen_loop_done slots w0 now q 1 _ [] (by simpa using hq),
        by simp only [List.length_nil]; omega⟩
  · intro hq fuel
    exact gen_loop_nil_none w0 now q fuel _ [] (by simpa using hq)

/-- Witness for `calendar_termination_dichotomy`: both branches exercised at a
concrete template, quantity and instant. -/
theorem calendar_termination_dichotomy_witness :
    (∃ fuel l, gen_loop [⟨0, 7, 30⟩] 0 0 1 fuel (0 / 86400) [] = some l ∧ l.length = 1) ∧
    gen_loop [] 0 0 1 5 (0 / 86400) [] = none :=
  ⟨(calendar_termination_dichotomy 0 0 1 [⟨0, 7, 30⟩] ⟨0, 7, 30⟩).1 (by decide) (by decide),
   (calendar_termination_dichotomy 0 0 1 [⟨0, 7, 30⟩] ⟨0, 7, 30⟩).2 (by decide) 5⟩

-- ### Data model of the remote platform and the `YouTubeAPI` gateway

/-- The parts of one video's full record (`videos().list`, parts
`status,snippet,contentDetails`) that the tasks read. -/
structure VideoDetail where
  title : Str
  privacyStatus : Str
  duration : Str
  relatedVideoId : Option Str
deriving DecidableEq

/-- One playlist membership record: the playlist-item id (used only for
deletion) and the video id it points at. -/
structure PlaylistItemRec where
  itemId : Nat
  videoId : Str
deriving DecidableEq

/-- The body sent by `update_video_content` (snippet, status and the optional
`contentDetails.relatedVideoId`). -/
structure UpdateBody where
  id : Str
  title : Str
  description : Str
  categoryId : Str
  privacyStatus : Str
  publishAt : Nat
  madeForKids : Bool
  relatedVideoId : Option Str
deriving DecidableEq

/-- One mutating gateway call, recorded at invocation time. -/
inductive WriteOp where
  | update (body : UpdateBody)
  | insert (playlistId : Str) (videoId : Str)
  | del (itemId : Nat)
deriving DecidableEq

/-- Transport-failure oracle: which per-item calls raise an exception. -/
structure Failures where
  detailFails : Str → Bool
  updateFails : Str → Bool
  insertFails : Str → Bool
  deleteFails : Nat → Bool

/-- Remote state as the tasks observe it: the channel's uploads playlist
(`(videoId, title)` pairs in playlist order), the full per-video records, the
membership records of every other playlist, a counter supplying fresh
playlist-item ids, and the log of mutating calls that were invoked. -/
structure APIState where
  uploadsItems : List (Str × Str)
  details : List (Str × VideoDetail)
  playlists : List (Str × List PlaylistItemRec)
  counter : Nat
  log : List WriteOp
deriving DecidableEq

/-- Association-list lookup (Python `dict` access / `.get`). -/
def lookupAssoc {α : Type} : List (Str × α) → Str → Option α
  | [], _ => none
  | (k, v) :: rest, key => if k = key then some v else lookupAssoc rest key

/-- Association-list store (Python `dict` assignment, last write wins). -/
def setAssoc {α : Type} : List (Str × α) → Str → α → List (Str × α)
  | [], k, v => [(k, v)]
  | (k', v') :: rest, k, v =>
    if k' = k then (k', v) :: rest else (k', v') :: setAssoc rest k v

/-- The membership records of one playlist (empty if untouched). -/
def getPlaylist (st : APIState) (pid : Str) : List PlaylistItemRec :=
  (lookupAssoc st.playlists pid).getD []

/-- `YouTubeAPI.fetch_videos(uploads_id)`: one `playlistItems().list` call with
`maxResults=100` and no pagination, so at most the first 100 uploads. -/
def fetch_videos (st : APIState) : List (Str × Str) :=
  st.uploadsItems.take 100

/-- `YouTubeAPI.fetch_playlist_items(pid)`: the video ids of at most the first
100 membership records (single call, `maxResults=100`, no pagination). -/
def fetch_playlist_items (st : APIState) (pid : Str) : List Str :=
  ((getPlaylist st pid).take 100).map (fun r => r.videoId)

/-- `YouTubeAPI.get_full_video_data(v)`: `none` stands for an empty `items`
response (the Python function returns `None` there, and the callers then
crash on `details["status"]`); `Except.error` is a transport exception. -/
def get_full_video_data (f : Failures) (st : APIState) (v : Str) :
    Except Unit (Option VideoDetail) :=
  if f.detailFails v then Except.error () else Except.ok (lookupAssoc st.details v)

/-- Remote effect of a successful metadata update: snippet and status fields
are replaced; the duration is read-only and the `relatedVideoId` contract is
opaque (the probe task exists because it is undocumented), so only title and
privacy are applied. -/
def applyUpdate (ds : List (Str × VideoDetail)) (b : UpdateBody) :
    List (Str × VideoDetail) :=
  ds.map (fun p =>
    if p.1 = b.id
    then (p.1, { p.2 with title := b.title, privacyStatus := b.privacyStatus })
    else p)

/-- `YouTubeAPI.update_video_content(body)`: the invocation is logged; on a
transport failure the flag is `false` and the remote record is unchanged. -/
def update_video_content (f : Failures) (st : APIState) (b : UpdateBody) :
    APIState × Bool :=
  let st1 := { st with log := st.log ++ [WriteOp.update b] }
  if f.updateFails b.id then (st1, false)
  else ({ st1 with details := applyUpdate st1.details b }, true)

/-- `YouTubeAPI.add_to_playlist(video_id, pid)`: the invocation is logged; on
success the platform appends a membership record with a fresh item id. -/
def add_to_playlist (f : Failures) (st : APIState) (pid vid : Str) :
    APIState × Bool :=
  let st1 := { st with log := st.log ++ [WriteOp.insert pid vid] }
  if f.insertFails vid then (st1, false)
  else
    ({ st1 with
        playlists := setAssoc st1.playlists pid
          (getPlaylist st1 pid ++ [⟨st1.counter, vid⟩]),
        counter := st1.counter + 1 }, true)

/-- `playlistItems().delete(id=item_id)` as used by `ClearPlaylistTask`. -/
def delete_playlist_item (f : Failures) (st : APIState) (iid : Nat) :
    APIState × Bool :=
  let st1 := { st with log := st.log ++ [WriteOp.del iid] }
  if f.deleteFails iid then (st1, false)
  else
    ({ st1 with
        playlists := st1.playlists.map
          (fun p => (p.1, p.2.filter (fun r => r.itemId ≠ iid))) }, true)

-- ### Title tagging, chapter matching, duration check, sorting

/-- String literals of the source, as character lists. -/
def privStr : Str := "private".toList

/-- `"public"`. -/
def pubStr : Str := "public".toList

/-- `"#biblia"`. -/
def bibliaTag : Str := "#biblia".toList

/-- `" #biblia"` (the text appended to an untagged title). -/
def bibliaSuffix : Str := " #biblia".toList

/-- `"GÉNESIS - CAPÍTULO"` (screened against the upper-cased title). -/
def genesisNeedle : Str := "GÉNESIS - CAPÍTULO".toList

/-- `"CAPÍTULO"` (the literal part of the upper-case chapter pattern). -/
def capNeedleUpper : Str := "CAPÍTULO".toList

/-- `"Capítulo"` (the literal part of the `re.IGNORECASE` chapter pattern). -/
def capNeedle : Str := "Capítulo".toList

/-- `new_title = title if "#biblia" in title.lower() else f"{title} #biblia"`. -/
def computeNewTitle (title : Str) : Str :=
  if containsSub bibliaTag (strLower title) then title else title ++ bibliaSuffix

/-- Case-folding prefix strip: if `needle` (case-insensitively when `ci`)
starts `s`, return the remainder. -/
def stripPrefixCI (ci : Bool) : Str → Str → Option Str
  | [], s => some s
  | _ :: _, [] => none
  | a :: as, b :: bs =>
    if (if ci then pyToLower a = pyToLower b else a = b)
    then stripPrefixCI ci as bs else none

/-- Does `needle ++ \s+ ++ (\d+)` match at the start of `s`?  Returns the
greedy digit group. -/
def chapterHere (ci : Bool) (needle s : Str) : Option Str :=
  match stripPrefixCI ci needle s with
  | none => none
  | some rest =>
    if (rest.takeWhile isSpaceChar).isEmpty then none
    else
      let ds := (rest.dropWhile isSpaceChar).takeWhile Char.isDigit
      if ds.isEmpty then none else some ds

/-- `re.search(needle + r"\s+(\d+)", s)` (with `re.IGNORECASE` when `ci`):
leftmost match wins.  The needles used are never empty. -/
def searchChapter (ci : Bool) (needle : Str) : Str → Option Str
  | [] => none
  | c :: rest =>
    match chapterHere ci needle (c :: rest) with
    | some ds => some ds
    | none => searchChapter ci needle rest

/-- The `ref_map` construction of `FullAutomationTask.execute`: for each upload
whose upper-cased title contains the Génesis marker, map the chapter number
(as a digit string) to the video id, last write wins. -/
def buildRefMap (items : List (Str × Str)) : List (Str × Str) :=
  items.foldl
    (fun m p =>
      let up := strUpper p.2
      if containsSub genesisNeedle up then
        match searchChapter false capNeedleUpper up with
        | some ds => setAssoc m ds p.1
        | none => m
      else m)
    []

/-- `AddPublicShortsExtendedTask._check_duration(duration_str, max_seconds)`. -/
def check_duration (duration_str : Str) (max_seconds : Nat) : Bool :=
  if duration_str.contains 'H' then false
  else
    let total :=
      (match scanNum 'M' duration_str with
       | some m => 60 * m
       | none => 0) +
      (match scanNum 'S' duration_str with
       | some s => s
       | none => 0)
    decide (0 < total) && decide (total ≤ max_seconds)

/-- Stable insertion used to model Python's stable `list.sort`: `x` goes after
every already-placed `y` with `le y x`. -/
def insertSorted {α : Type} (le : α → α → Bool) (x : α) : List α → List α
  | [] => [x]
  | y :: ys => if le y x then y :: insertSorted le x ys else x :: y :: ys

/-- Python `list.sort(key=...)`: a stable sort, modelled extensionally by
stable insertion in input order. -/
def stableSort {α : Type} (le : α → α → Bool) (l : List α) : List α :=
  l.foldl (fun acc x => insertSorted le x acc) []

/-- An element of `ListPrivateVideosTask`'s result list:
`{"title": ..., "id": ..., "details": ...}`. -/
structure Candidate where
  title : Str
  id : Str
  details : VideoDetail
deriving DecidableEq

/-- An element of `AddPublicShortsExtendedTask`'s selection:
`{"title": ..., "id": ...}`. -/
structure SelVid where
  title : Str
  id : Str
deriving DecidableEq

/-- `private_videos.sort(key=lambda x: x["title"])`: ascending, case
sensitive, stable. -/
def sortPrivate (l : List Candidate) : List Candidate :=
  stableSort (fun a b => lexLe a.title b.title) l

/-- `videos_seleccionados.sort(key=lambda x: x["title"].lower(), reverse=True)`:
descending on the lower-cased title, stable. -/
def sortShorts (l : List SelVid) : List SelVid :=
  stableSort (fun a b => lexLe (strLower b.title) (strLower a.title)) l

-- ### Task variants

/-- The filter loop of `ListPrivateVideosTask.execute`: per item the full
record is fetched (uncaught — a transport failure or a `None` record raises
out of the task), and private videos are collected in list order with the
title taken from the fetched detail. -/
def listPrivateLoop (f : Failures) (st : APIState) :
    List (Str × Str) → List Candidate → Except Unit (List Candidate)
  | [], acc => Except.ok acc
  | (vid, _) :: rest, acc =>
    if f.detailFails vid then Except.error ()
    else
      match lookupAssoc st.details vid with
      | none => Except.error ()
      | some d =>
        if d.privacyStatus = privStr
        then listPrivateLoop f st rest (acc ++ [⟨d.title, vid, d⟩])
        else listPrivateLoop f st rest acc

/-- `ListPrivateVideosTask.execute`: fetch the uploads, filter to private
videos, sort ascending by title. -/
def listPrivateExec (f : Failures) (st : APIState) : Except Unit (List Candidate) :=
  match listPrivateLoop f st (fetch_videos st) [] with
  | Except.error e => Except.error e
  | Except.ok l => Except.ok (sortPrivate l)

/-- The selection loop of `AddPublicShortsExtendedTask.execute`: per item the
full record is fetched (uncaught), non-public videos are skipped, and the
duration filter keeps strictly positive totals of at most 120 seconds; the
title is taken from the uploads listing. -/
def selectShortsLoop (f : Failures) (st : APIState) :
    List (Str × Str) → List SelVid → Except Unit (List SelVid)
  | [], acc => Except.ok acc
  | (vid, title) :: rest, acc =>
    if f.detailFails vid then Except.error ()
    else
      match lookupAssoc st.details vid with
      | none => Except.error ()
      | some d =>
        if d.privacyStatus ≠ pubStr then selectShortsLoop f st rest acc
        else if check_duration d.duration 120
        then selectShortsLoop f st rest (acc ++ [⟨title, vid⟩])
        else selectShortsLoop f st rest acc

/-- The insertion loop of `AddPublicShortsExtendedTask.execute`: a candidate
already in the fetched membership listing is skipped; otherwise the insert is
invoked and an insert failure is caught per item. -/
def shortsInsertLoop (f : Failures) (pid : Str) (members : List Str)
    (st : APIState) (cs : List SelVid) : APIState :=
  cs.foldl
    (fun s c =>
      if decide (c.id ∈ members) then s
      else (add_to_playlist f s pid c.id).1)
    st

/-- `AddPublicShortsExtendedTask.execute` (the `SyncShortFormPublic` task). -/
def executeShorts (f : Failures) (st : APIState) (pid : Str) :
    Except Unit APIState :=
  let members := fetch_playlist_items st pid
  match selectShortsLoop f st (fetch_videos st) [] with
  | Except.error e => Except.error e
  | Except.ok sel => Except.ok (shortsInsertLoop f pid members st (sortShorts sel))

/-- The update body built for one candidate: tagged title, description,
category 22, privacy kept private, the batch timestamp as `publishAt`, and the
related chapter video resolved through the reference map when the title
carries a (case-insensitive) chapter marker. -/
def fullBody (desc : Str) (refMap : List (Str × Str)) (c : Candidate)
    (date : Nat) : UpdateBody :=
  ⟨c.id, computeNewTitle c.title, desc, "22".toList, privStr, date, false,
    match searchChapter true capNeedle c.title with
    | some k => lookupAssoc refMap k
    | none => none⟩

/-- One iteration of `FullAutomationTask.execute`'s final loop: resolve the
related chapter, tag the title, always update metadata, and insert into the
playlist only when absent from the fetched membership listing; both mutations
sit in one per-item `try`, so an update failure also skips the insert and
neither failure stops the loop. -/
def perItemFull (f : Failures) (pid desc : Str) (refMap : List (Str × Str))
    (members : List Str) (st : APIState) (c : Candidate) (date : Nat) : APIState :=
  let r := update_video_content f st (fullBody desc refMap c date)
  if r.2 then
    if decide (c.id ∈ members) then r.1
    else (add_to_playlist f r.1 pid c.id).1
  else r.1

/-- The final loop of `FullAutomationTask.execute` over the candidates zipped
positionally with the schedule batch. -/
def fullInsertLoop (f : Failures) (pid desc : Str) (refMap : List (Str × Str))
    (members : List Str) (st : APIState) (pairs : List (Candidate × Nat)) : APIState :=
  pairs.foldl (fun s p => perItemFull f pid desc refMap members s p.1 p.2) st

/-- `FullAutomationTask.execute` (the `FullSchedule` task): list private
candidates (errors propagate), return immediately when there are none,
otherwise fetch the membership listing, build the reference map, generate the
schedule batch and run the per-item loop. -/
def executeFull (f : Failures) (w0 now : Nat) (st : APIState) (pid desc : Str) :
    Except Unit APIState :=
  match listPrivateExec f st with
  | Except.error e => Except.error e
  | Except.ok cands =>
    if cands.isEmpty then Except.ok st
    else
      let members := fetch_playlist_items st pid
      let refMap := buildRefMap (fetch_videos st)
      let dates := generate_schedule w0 now cands.length
      Except.ok (fullInsertLoop f pid desc refMap members st (cands.zip dates))

/-- `ClearPlaylistTask.execute`: list at most the first 100 membership records
(`maxResults=100`, no pagination), return if empty, else delete each listed
record by its item id, continuing past per-item failures. -/
def executeClear (f : Failures) (st : APIState) (pid : Str) : APIState :=
  let items := (getPlaylist st pid).take 100
  if items.isEmpty then st
  else items.foldl (fun s r => (delete_playlist_item f s r.itemId).1) st

-- ### Shared concrete fixtures

/-- Oracle on which every transport call succeeds. -/
def noFailures : Failures :=
  ⟨fun _ => false, fun _ => false, fun _ => false, fun _ => false⟩

/-- Oracle on which only the detail fetch of video `"a"` fails. -/
def failDetailA : Failures :=
  ⟨fun v => decide (v = ['a']), fun _ => false, fun _ => false, fun _ => false⟩

/-- A remote state with no uploads, no records and no playlists. -/
def stEmpty : APIState := ⟨[], [], [], 0, []⟩

/-- Two private uploads `"a"`, `"b"`. -/
def stTwoPrivate : APIState :=
  ⟨[(['a'], ['t']), (['b'], ['u'])],
   [(['a'], ⟨['t'], privStr, [], none⟩), (['b'], ⟨['u'], privStr, [], none⟩)],
   [], 0, []⟩

-- ### C6: the two candidate sorts

/-- C6: on titles `["B", "a", "C"]` the private-candidate sort (ascending,
case-sensitive) yields `["B", "C", "a"]` while the public-short sort
(descending on the lower-cased title) yields `["C", "B", "a"]`; both are pure
functions of their input, hence deterministic. -/
theorem sorts_on_B_a_C :
    (sortPrivate
        [⟨['B'], ['1'], ⟨[], [], [], none⟩⟩,
         ⟨['a'], ['2'], ⟨[], [], [], none⟩⟩,
         ⟨['C'], ['3'], ⟨[], [], [], none⟩⟩]).map (fun c => c.title) =
      [['B'], ['C'], ['a']] ∧
    (sortShorts [⟨['B'], ['1']⟩, ⟨['a'], ['2']⟩, ⟨['C'], ['3']⟩]).map
        (fun c => c.title) =
      [['C'], ['B'], ['a']] := by
  decide

-- ### C7: idempotence of the title tagging

lemma containsSub_append_left (needle : Str) :
    ∀ (xs ys : Str), containsSub needle ys = true →
      containsSub needle (xs ++ ys) = true := by
  intro xs
  induction xs with
  | nil => intro ys h; simpa using h
  | cons x xs ih =>
    intro ys h
    have : containsSub needle (x :: (xs ++ ys)) =
        (isPrefixOfChars needle (x :: (xs ++ ys)) || containsSub needle (xs ++ ys)) := rfl
    rw [List.cons_append, this, ih ys h, Bool.or_true]

/-- C7: the tagging step of the target-body computation is idempotent — a
title that already carries `"#biblia"` (case-insensitively) is returned
unchanged, so applying the computation twice equals applying it once and no
duplicate tag ever appears. -/
theorem computeNewTitle_idempotent (title : Str) :
    computeNewTitle (computeNewTitle title) = computeNewTitle title := by
  by_cases h : containsSub bibliaTag (strLower title) = true
  · simp [computeNewTitle, h]
  · have hmap : strLower (title ++ bibliaSuffix) =
        strLower title ++ strLower bibliaSuffix := by
      simp [strLower]
    have h' : containsSub bibliaTag (strLower (title ++ bibliaSuffix)) = true := by
      rw [hmap]
      exact containsSub_append_left bibliaTag (strLower title) (strLower bibliaSuffix)
        (by decide)
    simp [computeNewTitle, h, h']

-- ### C9: empty candidate list means no gateway write at all

/-- C9: when private-candidate selection returns the empty list, the
FullSchedule task returns with the remote state — including the write log —
completely unchanged: no metadata update and no membership insert is invoked,
and neither a schedule batch nor a reference map is consumed. -/
theorem full_task_unchanged_on_empty_candidates
    (f : Failures) (w0 now : Nat) (st : APIState) (pid desc : Str)
    (h : listPrivateExec f st = Except.ok []) :
    executeFull f w0 now st pid desc = Except.ok st := by
  simp [executeFull, h]

/-- Witness for `full_task_unchanged_on_empty_candidates` at a concrete state
with no private uploads. -/
theorem full_task_unchanged_on_empty_candidates_witness :
    executeFull noFailures 0 0 stEmpty ['p'] ['d'] = Except.ok stEmpty :=
  full_task_unchanged_on_empty_candidates noFailures 0 0 stEmpty ['p'] ['d'] rfl

-- ### C10: the duration check is total and rejects token-free strings

lemma scanNumAux_none_of_no_digits (c : Char) :
    ∀ s : Str, (∀ x ∈ s, x.isDigit = false) → scanNumAux c none s = none := by
  intro s
  induction s with
  | nil => intro _; rfl
  | cons x xs ih =>
    intro h
    have hx : x.isDigit = false := h x (List.mem_cons_self x xs)
    simp [scanNumAux, hx]
    exact ih (fun y hy => h y (List.mem_cons_of_mem x hy))

/-- C10: `_check_duration` is total on arbitrary strings — with no digits the
minute/second searches match nothing, and whenever the string has no hour
marker and neither token parses (the empty string included) the computed total
is 0, which the `0 < total` bound excludes, so the item is rejected rather
than an error raised. -/
theorem check_duration_total_no_token (s : Str) (maxs : Nat) (c : Char) :
    ((∀ x ∈ s, x.isDigit = false) → scanNum c s = none) ∧
    ('H' ∉ s → scanNum 'M' s = none → scanNum 'S' s = none →
      check_duration s maxs = false) := by
  constructor
  · intro h
    exact scanNumAux_none_of_no_digits c s h
  · intro hH hm1 hs1
    have hcont : s.contains 'H' = false := by
      by_cases hb : s.contains 'H' = true
      · exact absurd (List.mem_of_elem_eq_true hb) hH
      · simpa using hb
    simp [check_duration, hcont, hm1, hs1]

/-- Witness for `check_duration_total_no_token` on the digit-free string
`"PTXY"` and on the empty string. -/
theorem check_duration_total_no_token_witness :
    scanNum 'M' "PTXY".toList = none ∧
    check_duration "PTXY".toList 120 = false ∧
    check_duration [] 120 = false := by
  refine ⟨?_, ?_, ?_⟩
  · exact (check_duration_total_no_token "PTXY".toList 120 'M').1 (by decide)
  · exact (check_duration_total_no_token "PTXY".toList 120 'M').2 (by decide)
      ((check_duration_total_no_token "PTXY".toList 120 'M').1 (by decide))
      ((check_duration_total_no_token "PTXY".toList 120 'S').1 (by decide))
  · exact (check_duration_total_no_token [] 120 'M').2 (by decide)
      ((check_duration_total_no_token [] 120 'M').1 (by decide))
      ((check_duration_total_no_token [] 120 'S').1 (by decide))

-- ### C4: a detail-fetch failure aborts the ListPrivate batch

lemma listPrivateLoop_error_of_fail (f : Failures) (st : APIState) :
    ∀ (items : List (Str × Str)) (acc : List Candidate),
      (∃ p ∈ items, f.detailFails p.1 = true) →
      listPrivateLoop f st items acc = Except.error () := by
  intro items
  induction items with
  | nil => intro acc h; simp at h
  | cons it rest ih =>
    intro acc ⟨p, hp, hf⟩
    obtain ⟨vid, title⟩ := it
    rcases List.mem_cons.1 hp with hp' | hp'
    · subst hp'
      simp [listPrivateLoop, hf]
    · by_cases hv : f.detailFails vid = true
      · simp [listPrivateLoop, hv]
      · simp only [listPrivateLoop, Bool.not_eq_true] at hv ⊢
        rw [hv]
        simp only [Bool.false_eq_true, if_false]
        cases lookupAssoc st.details vid with
        | none => rfl
        | some d =>
          by_cases hd : d.privacyStatus = privStr
          · simp [hd]; exact ih _ ⟨p, hp', hf⟩
          · simp [hd]; exact ih _ ⟨p, hp', hf⟩

/-- C4 counterexample: uploads `["a", "b"]`, both private, and a transport
failure on the detail fetch of `"a"`: the ListPrivate task aborts with the
exception instead of skipping `"a"` and returning `"b"` — the remaining item
of the batch is never processed. -/
theorem listPrivate_detail_failure_aborts :
    listPrivateExec failDetailA stTwoPrivate = Except.error () ∧
    listPrivateExec noFailures stTwoPrivate =
      Except.ok [⟨['t'], ['a'], ⟨['t'], privStr, [], none⟩⟩,
                 ⟨['u'], ['b'], ⟨['u'], privStr, [], none⟩⟩] := ⟨rfl, rfl⟩

/-- C4 (amended): `ListPrivateVideosTask.execute` has no per-item exception
handling — if the detail fetch of any listed upload fails, the whole task
raises and no remaining item is processed.  (The per-item catch the spec
describes exists only in the mutation loops of the other tasks.) -/
theorem listPrivate_detail_failure_aborts_batch
    (f : Failures) (st : APIState) (vid title : Str)
    (hmem : (vid, title) ∈ fetch_videos st)
    (hf : f.detailFails vid = true) :
    listPrivateExec f st = Except.error () := by
  have h := listPrivateLoop_error_of_fail f st (fetch_videos st) []
    ⟨(vid, title), hmem, hf⟩
  simp [listPrivateExec, h]

/-- Witness for `listPrivate_detail_failure_aborts_batch` at the two-upload
state. -/
theorem listPrivate_detail_failure_aborts_batch_witness :
    listPrivateExec failDetailA stTwoPrivate = Except.error () :=
  listPrivate_detail_failure_aborts_batch failDetailA stTwoPrivate ['a'] ['t']
    (by decide) (by decide)

-- ### C8: every listing is a single call capped at 100 records

lemma lookupAssoc_map {α β : Type} (g : α → β) :
    ∀ (l : List (Str × α)) (k : Str),
      lookupAssoc (l.map (fun p => (p.1, g p.2))) k = (lookupAssoc l k).map g := by
  intro l
  induction l with
  | nil => intro k; rfl
  | cons p rest ih =>
    intro k
    by_cases hk : p.1 = k
    · simp [lookupAssoc, hk]
    · simp [lookupAssoc, hk, ih]

lemma getPlaylist_delete (f : Failures) (st : APIState) (iid : Nat) (pid : Str) :
    getPlaylist ((delete_playlist_item f st iid).1) pid =
      if f.deleteFails iid then getPlaylist st pid
      else (getPlaylist st pid).filter (fun r => r.itemId ≠ iid) := by
  by_cases hf : f.deleteFails iid = true
  · simp [delete_playlist_item, hf, getPlaylist]
  · simp only [Bool.not_eq_true] at hf
    simp only [delete_playlist_item, hf, Bool.false_eq_true, if_false, getPlaylist]
    rw [lookupAssoc_map]
    cases lookupAssoc st.playlists pid with
    | none => rfl
    | some l => rfl

lemma clear_delete_fold (f : Failures) (pid : Str) :
    ∀ (todo rest : List PlaylistItemRec) (s : APIState),
      getPlaylist s pid = todo ++ rest →
      ((todo ++ rest).map (fun r => r.itemId)).Nodup →
      (∀ r ∈ todo, f.deleteFails r.itemId = false) →
      getPlaylist (todo.foldl (fun s r => (delete_playlist_item f s r.itemId).1) s) pid
        = rest := by
  intro todo
  induction todo with
  | nil => intro rest s h _ _; simpa using h
  | cons r0 todo ih =>
    intro rest s h hnd hok
    have hf : f.deleteFails r0.itemId = false := hok r0 (List.mem_cons_self _ _)
    have hnd2 : ((∀ x ∈ todo, ¬x.itemId = r0.itemId) ∧
          ∀ x ∈ rest, ¬x.itemId = r0.itemId) ∧
        (todo.map (fun r => r.itemId) ++ rest.map (fun r => r.itemId)).Nodup := by
      simpa using hnd
    have hnotin : ∀ r ∈ todo ++ rest, r.itemId ≠ r0.itemId := by
      intro r hr
      rcases List.mem_append.1 hr with hr | hr
      · exact hnd2.1.1 r hr
      · exact hnd2.1.2 r hr
    have hstep : getPlaylist ((delete_playlist_item f s r0.itemId).1) pid =
        todo ++ rest := by
      rw [getPlaylist_delete, hf]
      simp only [Bool.false_eq_true, if_false, h, List.cons_append]
      rw [List.filter_cons, if_neg (by simp)]
      apply List.filter_eq_self.2
      intro r hr
      simpa using hnotin r hr
    simp only [List.foldl_cons]
    apply ih rest _ hstep ?_ (fun r hr => hok r (List.mem_cons_of_mem _ hr))
    simpa using hnd2.2

/-- C8: each listing operation issues a single request with `maxResults=100`
and never paginates, so candidate selection and dedup see at most the first
100 uploads and 100 membership records, and `ClearPlaylistTask` deletes only
the first 100 records — everything past that prefix survives a clear run. -/
theorem listings_capped_at_100 (f : Failures) (st : APIState) (pid : Str) :
    (fetch_videos st).length ≤ 100 ∧
    (fetch_playlist_items st pid).length ≤ 100 ∧
    (((getPlaylist st pid).map (fun r => r.itemId)).Nodup →
      (∀ r ∈ getPlaylist st pid, f.deleteFails r.itemId = false) →
      getPlaylist (executeClear f st pid) pid = (getPlaylist st pid).drop 100) := by
  refine ⟨?_, ?_, ?_⟩
  · simpa [fetch_videos] using List.length_take_le 100 st.uploadsItems
  · simpa [fetch_playlist_items] using List.length_take_le 100 (getPlaylist st pid)
  · intro hnd hok
    by_cases hempty : ((getPlaylist st pid).take 100).isEmpty
    · have hnil : getPlaylist st pid = [] := by
        rcases List.take_eq_nil_iff.1 (List.isEmpty_iff.1 hempty) with h | h
        · omega
        · exact h
      simp [executeClear, hempty, hnil]
    · have hsplit : (getPlaylist st pid).take 100 ++ (getPlaylist st pid).drop 100 =
          getPlaylist st pid := List.take_append_drop 100 (getPlaylist st pid)
      have := clear_delete_fold f pid ((getPlaylist st pid).take 100)
        ((getPlaylist st pid).drop 100) st (by rw [hsplit]) (by rw [hsplit]; exact hnd)
        (fun r hr => hok r (List.take_subset 100 _ hr))
      simpa [executeClear, hempty] using this

/-- Witness for `listings_capped_at_100`: a two-record playlist is fully
cleared (its 100-record prefix is everything). -/
theorem listings_capped_at_100_witness :
    getPlaylist (executeClear noFailures
        ⟨[], [], [(['p'], [⟨0, ['a']⟩, ⟨1, ['b']⟩])], 2, []⟩ ['p']) ['p'] =
      (getPlaylist ⟨[], [], [(['p'], [⟨0, ['a']⟩, ⟨1, ['b']⟩])], 2, []⟩ ['p']).drop 100 :=
  (listings_capped_at_100 noFailures
      ⟨[], [], [(['p'], [⟨0, ['a']⟩, ⟨1, ['b']⟩])], 2, []⟩ ['p']).2.2
    (by decide) (by decide)

-- ### C5: the public-short candidate filter

lemma scanNumAux_cons_digit (ch x : Char) (cur : Option Nat) (xs : Str)
    (hx : x.isDigit = true) :
    scanNumAux ch cur (x :: xs) =
      scanNumAux ch (some (10 * cur.getD 0 + (x.toNat - 48))) xs := by
  simp [scanNumAux, hx]

lemma scanNumAux_cons_none (ch x : Char) (xs : Str) (hx : x.isDigit = false) :
    scanNumAux ch none (x :: xs) = scanNumAux ch none xs := by
  simp [scanNumAux, hx]

lemma scanNumAux_cons_some (ch x : Char) (v : Nat) (xs : Str) (hx : x.isDigit = false) :
    scanNumAux ch (some v) (x :: xs) =
      if x == ch then some v else scanNumAux ch none xs := by
  simp [scanNumAux, hx]

lemma scanNumAux_digits (ch : Char) :
    ∀ (dm r : Str) (cur : Option Nat), dm ≠ [] → (∀ c ∈ dm, c.isDigit = true) →
      scanNumAux ch cur (dm ++ r) =
        scanNumAux ch
          (some (dm.foldl (fun a c => 10 * a + (c.toNat - 48)) (cur.getD 0))) r := by
  intro dm
  induction dm with
  | nil => intro r cur h _; exact absurd rfl h
  | cons d dm ih =>
    intro r cur _ hdig
    have hd : d.isDigit = true := hdig d (List.mem_cons_self _ _)
    rw [List.cons_append, scanNumAux_cons_digit ch d cur _ hd]
    rcases eq_or_ne dm [] with hnil | hnil
    · subst hnil
      simp
    · rw [ih r (some (10 * cur.getD 0 + (d.toNat - 48))) hnil
        (fun c hc => hdig c (List.mem_cons_of_mem _ hc))]
      simp

/-- The ISO-8601-like encoding `"PT" + dm + "M" + ds + "S"` that the platform
reports for sub-hour durations. -/
def ptEncode (dm ds : Str) : Str :=
  'P' :: 'T' :: (dm ++ ('M' :: (ds ++ ['S'])))

lemma scanNum_ptEncode_M (dm ds : Str) (hdm : dm ≠ [])
    (hdig : ∀ c ∈ dm, c.isDigit = true) :
    scanNum 'M' (ptEncode dm ds) = some (digitsVal dm) := by
  show scanNumAux 'M' none ('P' :: 'T' :: (dm ++ ('M' :: (ds ++ ['S'])))) = _
  rw [scanNumAux_cons_none 'M' 'P' _ (by decide), scanNumAux_cons_none 'M' 'T' _ (by decide),
    scanNumAux_digits 'M' dm _ none hdm hdig,
    scanNumAux_cons_some 'M' 'M' _ _ (by decide)]
  simp [digitsVal]

lemma scanNum_ptEncode_S (dm ds : Str) (hdm : dm ≠ []) (hds : ds ≠ [])
    (hdigm : ∀ c ∈ dm, c.isDigit = true) (hdigs : ∀ c ∈ ds, c.isDigit = true) :
    scanNum 'S' (ptEncode dm ds) = some (digitsVal ds) := by
  show scanNumAux 'S' none ('P' :: 'T' :: (dm ++ ('M' :: (ds ++ ['S'])))) = _
  rw [scanNumAux_cons_none 'S' 'P' _ (by decide), scanNumAux_cons_none 'S' 'T' _ (by decide),
    scanNumAux_digits 'S' dm _ none hdm hdigm,
    scanNumAux_cons_some 'S' 'M' _ _ (by decide)]
  rw [show ('M' == 'S') = false from by decide]
  simp only [Bool.false_eq_true, if_false]
  rw [scanNumAux_digits 'S' ds ['S'] none hds hdigs,
    scanNumAux_cons_some 'S' 'S' _ _ (by decide)]
  simp [digitsVal]

lemma ptEncode_no_H (dm ds : Str)
    (hdigm : ∀ c ∈ dm, c.isDigit = true) (hdigs : ∀ c ∈ ds, c.isDigit = true) :
    (ptEncode dm ds).contains 'H' = false := by
  by_cases hb : (ptEncode dm ds).contains 'H' = true
  · exfalso
    have hm := List.mem_of_elem_eq_true hb
    simp only [ptEncode, List.mem_cons, List.mem_append, List.mem_singleton,
      List.not_mem_nil, or_false] at hm
    rcases hm with h | h | h | h | h | h
    · exact absurd h (by decide)
    · exact absurd h (by decide)
    · exact absurd (hdigm 'H' h) (by decide)
    · exact absurd h (by decide)
    · exact absurd (hdigs 'H' h) (by decide)
    · exact absurd h (by decide)
  · simpa using hb

/-- C5: the public-short filter selects exactly the PUBLIC items whose
duration lies in `(0, max]`: on an encoding with minute token `dm` and second
token `ds` the check computes `60*dm + ds` and accepts exactly when
`0 < total ≤ max` (upper bound inclusive, zero excluded), any encoding
containing an hour marker is excluded outright, and the selection loop keeps
an item exactly when its privacy is `"public"` and the check passes. -/
theorem shorts_filter_characterization (maxs : Nat) (dm ds str : Str)
    (f : Failures) (st : APIState) (vid title : Str) (d : VideoDetail) :
    (dm ≠ [] → ds ≠ [] → (∀ c ∈ dm, c.isDigit = true) → (∀ c ∈ ds, c.isDigit = true) →
      check_duration (ptEncode dm ds) maxs =
        decide (0 < 60 * digitsVal dm + digitsVal ds ∧
          60 * digitsVal dm + digitsVal ds ≤ maxs)) ∧
    ('H' ∈ str → check_duration str maxs = false) ∧
    (lookupAssoc st.details vid = some d → f.detailFails vid = false →
      selectShortsLoop f st [(vid, title)] [] =
        Except.ok
          (if d.privacyStatus = pubStr ∧ check_duration d.duration 120 = true
           then [⟨title, vid⟩] else [])) := by
  refine ⟨?_, ?_, ?_⟩
  · intro hdm hds hdigm hdigs
    rw [check_duration, ptEncode_no_H dm ds hdigm hdigs]
    simp only [Bool.false_eq_true, if_false]
    rw [scanNum_ptEncode_M dm ds hdm hdigm, scanNum_ptEncode_S dm ds hdm hds hdigm hdigs]
    by_cases h1 : 0 < 60 * digitsVal dm + digitsVal ds <;>
      by_cases h2 : 60 * digitsVal dm + digitsVal ds ≤ maxs <;>
      simp [h1, h2]
  · intro hmem
    have hcont : str.contains 'H' = true := List.elem_eq_true_of_mem hmem
    simp only [check_duration, hcont]
    rfl
  · intro hd hf
    simp only [selectShortsLoop, hf, Bool.false_eq_true, if_false, hd]
    by_cases hpriv : d.privacyStatus = pubStr
    · by_cases hdur : check_duration d.duration 120 = true
      · simp [selectShortsLoop, hpriv, hdur]
      · simp [selectShortsLoop, hpriv, hdur]
    · simp [selectShortsLoop, hpriv]

/-- A single public upload `"a"` lasting one minute. -/
def stOnePublic : APIState :=
  ⟨[(['a'], ['t'])], [(['a'], ⟨['t'], pubStr, "PT1M0S".toList, none⟩)], [], 0, []⟩

/-- Witness for `shorts_filter_characterization`: the spec's own scenarios —
`"PT2M5S"` against `max = 120` computes 125 and is excluded, an hour-marked
encoding is excluded, and the one-minute public video `"a"` is selected. -/
theorem shorts_filter_characterization_witness :
    check_duration (ptEncode ['2'] ['5']) 120 =
      decide (0 < 60 * digitsVal ['2'] + digitsVal ['5'] ∧
        60 * digitsVal ['2'] + digitsVal ['5'] ≤ 120) ∧
    check_duration "PT1H1S".toList 120 = false ∧
    selectShortsLoop noFailures stOnePublic [(['a'], ['t'])] [] =
      Except.ok
        (if (⟨['t'], pubStr, "PT1M0S".toList, none⟩ : VideoDetail).privacyStatus = pubStr ∧
            check_duration (⟨['t'], pubStr, "PT1M0S".toList, none⟩ : VideoDetail).duration 120
              = true
         then [⟨['t'], ['a']⟩] else []) :=
  ⟨(shorts_filter_characterization 120 ['2'] ['5'] [] noFailures stEmpty [] []
      ⟨[], [], [], none⟩).1 (by decide) (by decide) (by decide) (by decide),
   (shorts_filter_characterization 120 ['2'] ['5'] "PT1H1S".toList noFailures stEmpty [] []
      ⟨[], [], [], none⟩).2.1 (by decide),
   (shorts_filter_characterization 120 ['2'] ['5'] [] noFailures stOnePublic ['a'] ['t']
      ⟨['t'], pubStr, "PT1M0S".toList, none⟩).2.2 (by decide) (by decide)⟩

-- ### C3: membership dedup machinery

/-- Number of membership records of a playlist that point at video `v`. -/
def countRec (l : List PlaylistItemRec) (v : Str) : Nat :=
  l.countP (fun r => decide (r.videoId = v))

lemma lookupAssoc_setAssoc_self {α : Type} :
    ∀ (l : List (Str × α)) (k : Str) (v : α),
      lookupAssoc (setAssoc l k v) k = some v := by
  intro l
  induction l with
  | nil => intro k v; simp [setAssoc, lookupAssoc]
  | cons p rest ih =>
    intro k v
    by_cases hk : p.1 = k
    · simp [setAssoc, hk, lookupAssoc]
    · simp [setAssoc, hk, lookupAssoc, ih]

lemma getPlaylist_update (f : Failures) (s : APIState) (b : UpdateBody) (pid : Str) :
    getPlaylist ((update_video_content f s b).1) pid = getPlaylist s pid := by
  by_cases hf : f.updateFails b.id = true
  · simp [update_video_content, hf, getPlaylist]
  · simp only [Bool.not_eq_true] at hf
    simp [update_video_content, hf, getPlaylist]

lemma log_update (f : Failures) (s : APIState) (b : UpdateBody) :
    ((update_video_content f s b).1).log = s.log ++ [WriteOp.update b] := by
  by_cases hf : f.updateFails b.id = true
  · simp [update_video_content, hf]
  · simp only [Bool.not_eq_true] at hf
    simp [update_video_content, hf]

lemma getPlaylist_add (f : Failures) (s : APIState) (pid vid : Str) :
    getPlaylist ((add_to_playlist f s pid vid).1) pid =
      if f.insertFails vid then getPlaylist s pid
      else getPlaylist s pid ++ [⟨s.counter, vid⟩] := by
  by_cases hf : f.insertFails vid = true
  · simp [add_to_playlist, hf, getPlaylist]
  · simp only [Bool.not_eq_true] at hf
    simp [add_to_playlist, hf, getPlaylist, lookupAssoc_setAssoc_self]

lemma log_add (f : Failures) (s : APIState) (pid vid : Str) :
    ((add_to_playlist f s pid vid).1).log = s.log ++ [WriteOp.insert pid vid] := by
  by_cases hf : f.insertFails vid = true
  · simp [add_to_playlist, hf]
  · simp only [Bool.not_eq_true] at hf
    simp [add_to_playlist, hf]

lemma countRec_append (l₁ l₂ : List PlaylistItemRec) (v : Str) :
    countRec (l₁ ++ l₂) v = countRec l₁ v + countRec l₂ v :=
  List.countP_append _ l₁ l₂

lemma countRec_single (c : Nat) (vid v : Str) :
    countRec [⟨c, vid⟩] v = if vid = v then 1 else 0 := by
  simp [countRec, List.countP_cons]

lemma countP_le_one_of_nodup_ids {α : Type} (g : α → Str) (v : Str) (p : α → Bool)
    (hp : ∀ c, p c = true → g c = v) :
    ∀ l : List α, (l.map g).Nodup → l.countP p ≤ 1 := by
  intro l
  induction l with
  | nil => intro _; simp
  | cons c l ih =>
    intro hnd
    have hnd' : (l.map g).Nodup := (List.nodup_cons.1 (by simpa using hnd)).2
    have hhead : g c ∉ l.map g := (List.nodup_cons.1 (by simpa using hnd)).1
    rw [List.countP_cons]
    by_cases hc : p c = true
    · have hzero : l.countP p = 0 := by
        rw [List.countP_eq_zero]
        intro a ha hpa
        exact hhead (by
          rw [show g c = g a from by rw [hp c hc, hp a hpa]]
          exact List.mem_map_of_mem g ha)
      rw [if_pos hc]
      omega
    · have := ih hnd'
      simp [hc]
      omega

lemma nodup_ids_of_counts (l : List PlaylistItemRec) :
    (∀ v, countRec l v ≤ 1) → (l.map (fun r => r.videoId)).Nodup := by
  induction l with
  | nil => intro _; simp
  | cons r l ih =>
    intro h
    simp only [List.map_cons, List.nodup_cons]
    constructor
    · intro hmem
      obtain ⟨r', hr', he⟩ := List.mem_map.1 hmem
      have : 2 ≤ countRec (r :: l) r.videoId := by
        rw [countRec, List.countP_cons, if_pos (by simp)]
        have hpos : 0 < l.countP (fun x => decide (x.videoId = r.videoId)) := by
          rw [List.countP_pos_iff]
          exact ⟨r', hr', by simp [he]⟩
        omega
      have := h r.videoId
      omega
    · apply ih
      intro v
      have := h v
      rw [countRec, List.countP_cons] at this
      rw [countRec]
      omega

lemma insertSorted_perm {α : Type} (le : α → α → Bool) (x : α) :
    ∀ l : List α, (insertSorted le x l).Perm (x :: l) := by
  intro l
  induction l with
  | nil => simp [insertSorted]
  | cons y ys ih =>
    by_cases hle : le y x = true
    · simp only [insertSorted, hle, if_true]
      exact (List.Perm.cons y ih).trans (List.Perm.swap x y ys)
    · simp [insertSorted, hle]

lemma foldl_insertSorted_perm {α : Type} (le : α → α → Bool) :
    ∀ (l acc : List α),
      (l.foldl (fun acc x => insertSorted le x acc) acc).Perm (acc ++ l) := by
  intro l
  induction l with
  | nil => intro acc; simp
  | cons x xs ih =>
    intro acc
    simp only [List.foldl_cons]
    have h1 := ih (insertSorted le x acc)
    have h2 : (insertSorted le x acc ++ xs).Perm ((x :: acc) ++ xs) :=
      List.Perm.append_right xs (insertSorted_perm le x acc)
    have h3 : ((x :: acc) ++ xs).Perm (acc ++ x :: xs) := by
      simpa using List.perm_middle.symm
    exact (h1.trans h2).trans h3

lemma stableSort_perm {α : Type} (le : α → α → Bool) (l : List α) :
    (stableSort le l).Perm l := by
  simpa using foldl_insertSorted_perm le l []

/-- When the guarded insert of the shorts task actually adds a record for
candidate `c` under target video id `v`. -/
def shortsPred (f : Failures) (members : List Str) (v : Str) (c : SelVid) : Bool :=
  decide (c.id = v) && !(decide (c.id ∈ members)) && !(f.insertFails c.id)

/-- When the update-then-guarded-insert of the full task adds a record for
candidate `c` under target video id `v`. -/
def fullPred (f : Failures) (members : List Str) (v : Str) (c : Candidate) : Bool :=
  decide (c.id = v) && !(f.updateFails c.id) && !(decide (c.id ∈ members)) &&
    !(f.insertFails c.id)

lemma shortsInsertLoop_count (f : Failures) (pid : Str) (members : List Str) (v : Str) :
    ∀ (cs : List SelVid) (s : APIState),
      countRec (getPlaylist (shortsInsertLoop f pid members s cs) pid) v =
        countRec (getPlaylist s pid) v + cs.countP (shortsPred f members v) := by
  intro cs
  induction cs with
  | nil => intro s; simp [shortsInsertLoop]
  | cons c cs ih =>
    intro s
    have hstep : shortsInsertLoop f pid members s (c :: cs) =
        shortsInsertLoop f pid members
          (if decide (c.id ∈ members) then s else (add_to_playlist f s pid c.id).1)
          cs := rfl
    rw [hstep, List.countP_cons]
    by_cases hm : c.id ∈ members
    · rw [if_pos (by simpa using hm), ih s, if_neg (by simp [shortsPred, hm])]
      omega
    · rw [if_neg (by simpa using hm), ih _, getPlaylist_add]
      by_cases hf : f.insertFails c.id = true
      · rw [if_pos hf, if_neg (by simp [shortsPred, hf])]
        omega
      · rw [if_neg hf, countRec_append, countRec_single]
        have hf' : f.insertFails c.id = false := by simpa using hf
        by_cases hv : c.id = v
        · rw [if_pos hv, if_pos (by
            simp only [shortsPred, hv]
            simp
            exact ⟨hv ▸ hm, hv ▸ hf'⟩)]
          omega
        · rw [if_neg hv, if_neg (by simp [shortsPred, hv])]
          omega

lemma update_snd (f : Failures) (s : APIState) (b : UpdateBody) :
    (update_video_content f s b).2 = !(f.updateFails b.id) := by
  by_cases hf : f.updateFails b.id = true <;> simp [update_video_content, hf]

lemma fullBody_id (desc : Str) (refMap : List (Str × Str)) (c : Candidate)
    (date : Nat) : (fullBody desc refMap c date).id = c.id := rfl

lemma perItemFull_count (f : Failures) (pid desc : Str) (refMap : List (Str × Str))
    (members : List Str) (s : APIState) (c : Candidate) (date : Nat) (v : Str) :
    countRec (getPlaylist (perItemFull f pid desc refMap members s c date) pid) v =
      countRec (getPlaylist s pid) v +
        (if fullPred f members v c = true then 1 else 0) := by
  by_cases hf : f.updateFails c.id = true
  · have hsnd : (update_video_content f s (fullBody desc refMap c date)).2 = false := by
      rw [update_snd, fullBody_id, hf]
      rfl
    simp only [perItemFull, hsnd, Bool.false_eq_true, if_false]
    rw [getPlaylist_update, if_neg (by simp [fullPred, hf])]
    omega
  · have hsnd : (update_video_content f s (fullBody desc refMap c date)).2 = true := by
      rw [update_snd, fullBody_id]
      simp only [Bool.not_eq_true] at hf
      rw [hf]
      rfl
    simp only [perItemFull, hsnd, if_true]
    by_cases hm : c.id ∈ members
    · rw [if_pos (by simpa using hm), getPlaylist_update,
        if_neg (by simp [fullPred, hm])]
      omega
    · rw [if_neg (by simpa using hm), getPlaylist_add, getPlaylist_update]
      by_cases hins : f.insertFails c.id = true
      · rw [if_pos hins, if_neg (by simp [fullPred, hins])]
        omega
      · rw [if_neg hins, countRec_append, countRec_single]
        have hup' : f.updateFails c.id = false := by simpa using hf
        have hins' : f.insertFails c.id = false := by simpa using hins
        by_cases hv : c.id = v
        · rw [if_pos hv, if_pos (by
            simp only [fullPred, hv]
            simp
            exact ⟨⟨hv ▸ hup', hv ▸ hm⟩, hv ▸ hins'⟩)]
        · rw [if_neg hv, if_neg (by simp [fullPred, hv])]

lemma fullInsertLoop_count (f : Failures) (pid desc : Str)
    (refMap : List (Str × Str)) (members : List Str) (v : Str) :
    ∀ (pairs : List (Candidate × Nat)) (s : APIState),
      countRec (getPlaylist (fullInsertLoop f pid desc refMap members s pairs) pid) v =
        countRec (getPlaylist s pid) v +
          pairs.countP (fun p => fullPred f members v p.1) := by
  intro pairs
  induction pairs with
  | nil => intro s; simp [fullInsertLoop]
  | cons p ps ih =>
    intro s
    have hstep : fullInsertLoop f pid desc refMap members s (p :: ps) =
        fullInsertLoop f pid desc refMap members
          (perItemFull f pid desc refMap members s p.1 p.2) ps := rfl
    rw [hstep, List.countP_cons, ih _, perItemFull_count]
    omega

lemma shortsInsertLoop_log (f : Failures) (pid : Str) (members : List Str) :
    ∀ (cs : List SelVid) (s : APIState),
      ∃ ext, (shortsInsertLoop f pid members s cs).log = s.log ++ ext ∧
        ∀ v ∈ members, WriteOp.insert pid v ∉ ext := by
  intro cs
  induction cs with
  | nil => intro s; exact ⟨[], by simp [shortsInsertLoop], by simp⟩
  | cons c cs ih =>
    intro s
    have hstep : shortsInsertLoop f pid members s (c :: cs) =
        shortsInsertLoop f pid members
          (if decide (c.id ∈ members) then s else (add_to_playlist f s pid c.id).1)
          cs := rfl
    rw [hstep]
    by_cases hm : c.id ∈ members
    · rw [if_pos (by simpa using hm)]
      exact ih s
    · rw [if_neg (by simpa using hm)]
      obtain ⟨ext, hlog, hfree⟩ := ih ((add_to_playlist f s pid c.id).1)
      refine ⟨[WriteOp.insert pid c.id] ++ ext, ?_, ?_⟩
      · rw [hlog, log_add]
        simp
      · intro v hv
        simp only [List.mem_append, List.mem_singleton]
        rintro (h | h)
        · have : v = c.id := by
            injection h with h1 h2
          exact hm (this ▸ hv)
        · exact hfree v hv h

lemma perItemFull_log (f : Failures) (pid desc : Str) (refMap : List (Str × Str))
    (members : List Str) (s : APIState) (c : Candidate) (date : Nat) :
    ∃ ext, (perItemFull f pid desc refMap members s c date).log = s.log ++ ext ∧
      ∀ v ∈ members, WriteOp.insert pid v ∉ ext := by
  by_cases hf : (update_video_content f s (fullBody desc refMap c date)).2 = true
  · simp only [perItemFull, hf, if_true]
    by_cases hm : c.id ∈ members
    · rw [if_pos (by simpa using hm)]
      refine ⟨[WriteOp.update (fullBody desc refMap c date)], log_update f s _, ?_⟩
      intro v _ h
      simp at h
    · rw [if_neg (by simpa using hm)]
      refine ⟨[WriteOp.update (fullBody desc refMap c date), WriteOp.insert pid c.id],
        ?_, ?_⟩
      · rw [log_add, log_update]
        simp
      · intro v hv
        simp only [List.mem_cons, List.mem_singleton, List.not_mem_nil]
        rintro (h | h | h)
        · exact absurd h (by simp)
        · have : v = c.id := by injection h with h1 h2
          exact hm (this ▸ hv)
        · exact h
  · simp only [Bool.not_eq_true] at hf
    simp only [perItemFull, hf, Bool.false_eq_true, if_false]
    refine ⟨[WriteOp.update (fullBody desc refMap c date)], log_update f s _, ?_⟩
    intro v _ h
    simp at h

lemma fullInsertLoop_log (f : Failures) (pid desc : Str)
    (refMap : List (Str × Str)) (members : List Str) :
    ∀ (pairs : List (Candidate × Nat)) (s : APIState),
      ∃ ext, (fullInsertLoop f pid desc refMap members s pairs).log = s.log ++ ext ∧
        ∀ v ∈ members, WriteOp.insert pid v ∉ ext := by
  intro pairs
  induction pairs with
  | nil => intro s; exact ⟨[], by simp [fullInsertLoop], by simp⟩
  | cons p ps ih =>
    intro s
    have hstep : fullInsertLoop f pid desc refMap members s (p :: ps) =
        fullInsertLoop f pid desc refMap members
          (perItemFull f pid desc refMap members s p.1 p.2) ps := rfl
    rw [hstep]
    obtain ⟨ext1, hlog1, hfree1⟩ := perItemFull_log f pid desc refMap members s p.1 p.2
    obtain ⟨ext2, hlog2, hfree2⟩ := ih (perItemFull f pid desc refMap members s p.1 p.2)
    refine ⟨ext1 ++ ext2, ?_, ?_⟩
    · rw [hlog2, hlog1, List.append_assoc]
    · intro v hv h
      rcases List.mem_append.1 h with h | h
      · exact hfree1 v hv h
      · exact hfree2 v hv h

lemma listPrivateLoop_ids (f : Failures) (st : APIState) :
    ∀ (items : List (Str × Str)) (acc l : List Candidate),
      listPrivateLoop f st items acc = Except.ok l →
      (l.map (fun c => c.id)).Sublist
        (acc.map (fun c => c.id) ++ items.map Prod.fst) := by
  intro items
  induction items with
  | nil =>
    intro acc l h
    have : acc = l := Except.ok.inj h
    subst this
    simp
  | cons it rest ih =>
    intro acc l h
    obtain ⟨vid, title⟩ := it
    simp only [listPrivateLoop] at h
    split at h
    · simp at h
    · split at h
      · simp at h
      · split at h
        · have hs := ih _ l h
          simpa using hs
        · have hs := ih acc l h
          refine hs.trans ?_
          have hsub : (rest.map Prod.fst).Sublist (vid :: rest.map Prod.fst) :=
            List.sublist_cons_self vid _
          simpa using hsub.append_left (acc.map (fun c => c.id))

lemma selectShortsLoop_ids (f : Failures) (st : APIState) :
    ∀ (items : List (Str × Str)) (acc l : List SelVid),
      selectShortsLoop f st items acc = Except.ok l →
      (l.map (fun c => c.id)).Sublist
        (acc.map (fun c => c.id) ++ items.map Prod.fst) := by
  intro items
  induction items with
  | nil =>
    intro acc l h
    have : acc = l := Except.ok.inj h
    subst this
    simp
  | cons it rest ih =>
    intro acc l h
    obtain ⟨vid, title⟩ := it
    simp only [selectShortsLoop] at h
    have hskipline : selectShortsLoop f st rest acc = Except.ok l →
        (l.map (fun c => c.id)).Sublist
          (acc.map (fun c => c.id) ++ ((vid, title) :: rest).map Prod.fst) := by
      intro h'
      refine (ih acc l h').trans ?_
      have hsub : (rest.map Prod.fst).Sublist (vid :: rest.map Prod.fst) :=
        List.sublist_cons_self vid _
      simpa using hsub.append_left (acc.map (fun c => c.id))
    split at h
    · simp at h
    · split at h
      · simp at h
      · split at h
        · exact hskipline h
        · split at h
          · have hs := ih _ l h
            simpa using hs
          · exact hskipline h

lemma countRec_le_one_of_nodup (l : List PlaylistItemRec) (v : Str)
    (hnd : (l.map (fun r => r.videoId)).Nodup) : countRec l v ≤ 1 :=
  countP_le_one_of_nodup_ids (fun r => r.videoId) v _
    (fun r hr => by simpa using hr) l hnd

lemma countRec_pos_mem (l : List PlaylistItemRec) (v : Str)
    (h : 0 < countRec l v) : v ∈ l.map (fun r => r.videoId) := by
  obtain ⟨r, hr, hp⟩ := List.countP_pos_iff.1 h
  have : r.videoId = v := by simpa using hp
  exact this ▸ List.mem_map_of_mem _ hr

lemma fetch_playlist_items_complete (st : APIState) (pid : Str)
    (hlen : (getPlaylist st pid).length ≤ 100) :
    fetch_playlist_items st pid = (getPlaylist st pid).map (fun r => r.videoId) := by
  rw [fetch_playlist_items, List.take_of_length_le hlen]

lemma shortsPred_id {f : Failures} {members : List Str} {v : Str} {c : SelVid}
    (h : shortsPred f members v c = true) : c.id = v ∧ c.id ∉ members := by
  simp [shortsPred] at h
  tauto

lemma fullPred_id {f : Failures} {members : List Str} {v : Str} {c : Candidate}
    (h : fullPred f members v c = true) : c.id = v ∧ c.id ∉ members := by
  simp [fullPred] at h
  tauto

/-- C3 (amended): when the collection holds at most 100 membership records at
the start of a run (so the single fetched page is the whole membership), each
(collection, item) pair occurs at most once, and the uploads listing carries
no duplicate ids, then after a completed `SyncShortFormPublic` or
`FullSchedule` run every pair still occurs at most once, and no membership
insertion is invoked for an item already present in the fetched listing.
Re-running either task on the resulting state under the same bounds preserves
the invariant again.  Beyond 100 records the dedup check sees only the first
page and the invariant can break (see the counterexample). -/
theorem membership_insert_guard_and_dedup
    (f : Failures) (st st1 st2 : APIState) (pid desc : Str) (w0 now : Nat)
    (hlen : (getPlaylist st pid).length ≤ 100)
    (hnd : ((getPlaylist st pid).map (fun r => r.videoId)).Nodup)
    (hup : ((fetch_videos st).map Prod.fst).Nodup) :
    (executeShorts f st pid = Except.ok st1 →
      ((getPlaylist st1 pid).map (fun r => r.videoId)).Nodup ∧
      ∃ ext, st1.log = st.log ++ ext ∧
        ∀ v ∈ fetch_playlist_items st pid, WriteOp.insert pid v ∉ ext) ∧
    (executeFull f w0 now st pid desc = Except.ok st2 →
      ((getPlaylist st2 pid).map (fun r => r.videoId)).Nodup ∧
      ∃ ext, st2.log = st.log ++ ext ∧
        ∀ v ∈ fetch_playlist_items st pid, WriteOp.insert pid v ∉ ext) := by
  have hmembers : fetch_playlist_items st pid =
      (getPlaylist st pid).map (fun r => r.videoId) :=
    fetch_playlist_items_complete st pid hlen
  constructor
  · intro h
    simp only [executeShorts] at h
    split at h
    · simp at h
    · rename_i sel heq
      have hst1 : shortsInsertLoop f pid (fetch_playlist_items st pid) st
          (sortShorts sel) = st1 := Except.ok.inj h
      have hids0 : (sel.map (fun c => c.id)).Sublist
          ((fetch_videos st).map Prod.fst) := by
        simpa using selectShortsLoop_ids f st (fetch_videos st) [] sel heq
      have hids1 : (sel.map (fun c => c.id)).Nodup := List.Nodup.sublist hids0 hup
      have hids : ((sortShorts sel).map (fun c => c.id)).Nodup :=
        (((stableSort_perm _ sel).map (fun c => c.id)).nodup_iff).2 hids1
      constructor
      · rw [← hst1]
        apply nodup_ids_of_counts
        intro v
        rw [shortsInsertLoop_count]
        have hcle : (sortShorts sel).countP
            (shortsPred f (fetch_playlist_items st pid) v) ≤ 1 :=
          countP_le_one_of_nodup_ids (fun c => c.id) v _
            (fun c hc => (shortsPred_id hc).1) _ hids
        by_cases hpos : 0 < (sortShorts sel).countP
            (shortsPred f (fetch_playlist_items st pid) v)
        · obtain ⟨c, _, hpc⟩ := List.countP_pos_iff.1 hpos
          obtain ⟨hcv, hcm⟩ := shortsPred_id hpc
          have hzero : countRec (getPlaylist st pid) v = 0 := by
            by_contra hnz
            have hvm : v ∈ (getPlaylist st pid).map (fun r => r.videoId) :=
              countRec_pos_mem _ _ (Nat.pos_of_ne_zero hnz)
            rw [← hmembers] at hvm
            exact hcm (hcv ▸ hvm)
          omega
        · have hone := countRec_le_one_of_nodup (getPlaylist st pid) v hnd
          omega
      · rw [← hst1]
        exact shortsInsertLoop_log f pid (fetch_playlist_items st pid) (sortShorts sel) st
  · intro h
    simp only [executeFull] at h
    split at h
    · simp at h
    · rename_i cands heq
      by_cases hem : cands.isEmpty = true
      · rw [if_pos hem] at h
        have hst2 : st = st2 := Except.ok.inj h
        rw [← hst2]
        exact ⟨hnd, [], by simp, by simp⟩
      · rw [if_neg hem] at h
        have hst2 : fullInsertLoop f pid desc (buildRefMap (fetch_videos st))
            (fetch_playlist_items st pid) st
            (cands.zip (generate_schedule w0 now cands.length)) = st2 :=
          Except.ok.inj h
        simp only [listPrivateExec] at heq
        split at heq
        · simp at heq
        · rename_i l0 heq0
          have hcl0 : sortPrivate l0 = cands := Except.ok.inj heq
          have hids0 : (l0.map (fun c => c.id)).Sublist
              ((fetch_videos st).map Prod.fst) := by
            simpa using listPrivateLoop_ids f st (fetch_videos st) [] l0 heq0
          have hids1 : (l0.map (fun c => c.id)).Nodup := List.Nodup.sublist hids0 hup
          have hcands : (cands.map (fun c => c.id)).Nodup := by
            rw [← hcl0]
            exact (((stableSort_perm _ l0).map (fun c => c.id)).nodup_iff).2 hids1
          have hlen_dates : (generate_schedule w0 now cands.length).length =
              cands.length := by
            obtain ⟨l, _, h2, h3, _⟩ := generate_schedule_spec w0 now cands.length
            rw [h2, h3]
          have hfst : (cands.zip (generate_schedule w0 now cands.length)).map
              Prod.fst = cands :=
            List.map_fst_zip _ _ (by omega)
          have hzip_ids : ((cands.zip (generate_schedule w0 now cands.length)).map
              (fun p => p.1.id)).Nodup := by
            have hcomp : (cands.zip (generate_schedule w0 now cands.length)).map
                (fun p => p.1.id) = cands.map (fun c => c.id) := by
              rw [show (fun p : Candidate × Nat => p.1.id) =
                  ((fun c : Candidate => c.id) ∘ Prod.fst) from rfl,
                ← List.map_map, hfst]
            rw [hcomp]
            exact hcands
          constructor
          · rw [← hst2]
            apply nodup_ids_of_counts
            intro v
            rw [fullInsertLoop_count]
            have hcle : (cands.zip (generate_schedule w0 now cands.length)).countP
                (fun p => fullPred f (fetch_playlist_items st pid) v p.1) ≤ 1 :=
              countP_le_one_of_nodup_ids (fun p => p.1.id) v _
                (fun c hc => (fullPred_id hc).1) _ hzip_ids
            by_cases hpos : 0 < (cands.zip
                (generate_schedule w0 now cands.length)).countP
                (fun p => fullPred f (fetch_playlist_items st pid) v p.1)
            · obtain ⟨c, _, hpc⟩ := List.countP_pos_iff.1 hpos
              obtain ⟨hcv, hcm⟩ := fullPred_id hpc
              have hzero : countRec (getPlaylist st pid) v = 0 := by
                by_contra hnz
                have hvm : v ∈ (getPlaylist st pid).map (fun r => r.videoId) :=
                  countRec_pos_mem _ _ (Nat.pos_of_ne_zero hnz)
                rw [← hmembers] at hvm
                exact hcm (hcv ▸ hvm)
              omega
            · have hone := countRec_le_one_of_nodup (getPlaylist st pid) v hnd
              omega
          · rw [← hst2]
            exact fullInsertLoop_log f pid desc (buildRefMap (fetch_videos st))
              (fetch_playlist_items st pid)
              (cands.zip (generate_schedule w0 now cands.length)) st

/-- 100 membership records pointing at video `"x"`. -/
def xRecords : List PlaylistItemRec := (List.range 100).map (fun i => ⟨i, ['x']⟩)

/-- A playlist with 101 records whose 101st points at the public short `"v"`,
which is also the only upload. -/
def stBig : APIState :=
  ⟨[(['v'], ['t'])], [(['v'], ⟨['t'], pubStr, "PT1M0S".toList, none⟩)],
   [(['p'], xRecords ++ [⟨100, ['v']⟩])], 101, []⟩

/-- Observation helper: the number of membership records for `v` after a
completed `SyncShortFormPublic` run. -/
def shortsRunCount (f : Failures) (st : APIState) (pid v : Str) : Option Nat :=
  match executeShorts f st pid with
  | Except.ok s => some (countRec (getPlaylist s pid) v)
  | Except.error _ => none

/-- C3 counterexample: on a collection that already holds 101 records, the
dedup check fetches only the first 100, misses the existing record of `"v"`,
invokes the insert for it, and the run ends with two records for the pair —
the claimed invariant fails as stated. -/
theorem shorts_reinserts_member_beyond_first_page :
    countRec (getPlaylist stBig ['p']) ['v'] = 1 ∧
    shortsRunCount noFailures stBig ['p'] ['v'] = some 2 := by decide

/-- A one-record playlist whose member `"a"` is also the only upload (a public
short). -/
def stWC3 : APIState :=
  ⟨[(['a'], ['t'])], [(['a'], ⟨['t'], pubStr, "PT1M0S".toList, none⟩)],
   [(['p'], [⟨0, ['a']⟩])], 1, []⟩

/-- Witness for `membership_insert_guard_and_dedup`: both tasks run to
completion on the one-record state — the shorts task skips its already-member
candidate (no insert invoked) and the full task finds no private candidate. -/
theorem membership_insert_guard_and_dedup_witness :
    (((getPlaylist stWC3 ['p']).map (fun r => r.videoId)).Nodup ∧
      ∃ ext, stWC3.log = stWC3.log ++ ext ∧
        ∀ v ∈ fetch_playlist_items stWC3 ['p'], WriteOp.insert ['p'] v ∉ ext) ∧
    ((getPlaylist stWC3 ['p']).map (fun r => r.videoId)).Nodup := by
  have h := membership_insert_guard_and_dedup noFailures stWC3 stWC3 stWC3 ['p'] ['d']
    0 0 (by decide) (by decide) (by decide)
  exact ⟨h.1 rfl, (h.2 rfl).1⟩
